import Mathlib

/-!
Shallow embedding of `emd/spectra.py` (OHBA-analysis/emd-mirror) and proofs
about the claims of its specification.

Conventions used throughout:
* a 2D numpy array of shape `(T, C)` (time x column) is embedded as a function
  `ℕ → ℕ → ℚ` (or `ℕ → ℕ → ℝ` where square roots are involved) together with
  explicit dimension arguments `T C : ℕ`; only indices `t < T`, `c < C` are
  meaningful;
* Python exceptions are embedded as `Except PyErr`;
* functions of external modules (`utils.*`, `scipy.*`) that the claims do not
  inspect are kept as parameters of the embedding, so every theorem quantifies
  over them (a result that holds for every choice of the external cannot
  depend on it having been called).
-/

/-- Python exceptions that the embedded code can raise. -/
inductive PyErr where
  /-- `NameError`: a free variable that has no binding anywhere. -/
  | nameError : String → PyErr
  /-- `UnboundLocalError`: a local variable read before any assignment ran. -/
  | unboundLocalError : String → PyErr
  /-- `ValueError`, as raised by explicit `raise ValueError(...)` statements. -/
  | valueError : String → PyErr
  deriving DecidableEq, Repr

/-- Embedding of `np.digitize(x, edges)` for a monotonically increasing edge
vector (the only case the repository uses): the returned index is the number
of edges `≤ x`, so `x` in the half-open bin `[edges[k], edges[k+1])` gets
index `k+1`, values below `edges[0]` get `0` and values `≥ edges[-1]` get
`edges.length`. -/
def digitize (x : ℚ) : List ℚ → ℕ
  | [] => 0
  | e :: rest => (if e ≤ x then 1 else 0) + digitize x rest

/-!
## `frequency_stats` (spectra.py lines 6-93)

The body is a four-way dispatch on the `method` string.  The externals the
non-error branches call are collected in `FreqStatsEnv` and the array values
are abstracted to a type `α`: the three claims about `frequency_stats`
(C1, C2, C8) are decided purely by the dispatch control flow.

Source facts mirrored here:
* the `'hilbert'` branch (line 49) evaluates `signal.hilbert( X, axis=0 )`
  where `X` is a name with no binding in the module, so it raises
  `NameError` before anything is computed;
* the `'quad'` branch builds the analytic signal with
  `quadrature_transform`, estimates amplitudes with
  `utils.interp_envelope(..., mode='upper')` per column, then runs the
  shared phase/frequency pipeline;
* the `'direct_quad'` branch starts with
  `raise ValueError('direct_quad method is broken!')`, so the code after the
  raise is dead;
* the final `else` only prints `'Method not recognised'`; control then falls
  through to line 87 where reading the never-assigned local
  `analytic_signal` raises `UnboundLocalError`.

The result is a pair: the list of lines printed to stdout, and either an
exception or the `(wrapped phase, frequency, amplitude)` triple.
-/

/-- External operations called by the non-error branches of
`frequency_stats`; kept abstract over the array value type `α`. -/
structure FreqStatsEnv (α : Type) where
  /-- `quadrature_transform` as used by the `'quad'` branch. -/
  quadrature_transform : α → α
  /-- the per-column `utils.interp_envelope(imf[:,ii,jj], mode='upper')`
  amplitude estimate, as a whole-array operation. -/
  interp_envelope_upper : α → α
  /-- `phase_from_analytic_signal(sig, smoothing, ret_phase='unwrapped')`. -/
  phase_from_analytic_signal : α → ℕ → α
  /-- `freq_from_phase(iphase, sample_rate)`. -/
  freq_from_phase : α → ℚ → α
  /-- `utils.wrap_phase`. -/
  wrap_phase : α → α

/-- Embedding of `frequency_stats(imf, sample_rate, method, smooth_phase=31)`
(spectra.py lines 6-93).  Returns the printed stdout lines and either an
exception or the `(IP, IF, IA)` triple. -/
def frequency_stats {α : Type} (env : FreqStatsEnv α) (imf : α)
    (sample_rate : ℚ) (method : String) (smooth_phase : ℕ := 31) :
    List String × Except PyErr (α × α × α) :=
  if method = "hilbert" then
    -- line 49: `analytic_signal = signal.hilbert( X, axis=0 )`; `X` is
    -- unbound in the module, so evaluating the call raises NameError.
    ([], .error (.nameError "X"))
  else if method = "quad" then
    let analytic_signal := env.quadrature_transform imf
    let iamp := env.interp_envelope_upper imf
    let iphase := env.phase_from_analytic_signal analytic_signal smooth_phase
    let ifreq := env.freq_from_phase iphase sample_rate
    ([], .ok (env.wrap_phase iphase, ifreq, iamp))
  else if method = "direct_quad" then
    -- line 74: the branch raises before running any of its dead code.
    ([], .error (.valueError "direct_quad method is broken!"))
  else
    -- line 84 prints; line 87 then reads the unassigned `analytic_signal`.
    (["Method not recognised"], .error (.unboundLocalError "analytic_signal"))

/-- Claim C1: the claim says `frequency_stats` with `method='hilbert'`
computes the analytic signal as the Hilbert transform of the input IMF array
and returns its magnitude as amplitude, rather than failing.  On the code it
fails: line 49 reads the module-level-unbound name `X` instead of the `imf`
parameter, so every call with `method='hilbert'` raises `NameError` — for
every input array and every behaviour of the external functions. -/
theorem C1_hilbert_branch_raises_NameError {α : Type} (env : FreqStatsEnv α)
    (imf : α) (sample_rate : ℚ) (smooth_phase : ℕ) :
    frequency_stats env imf sample_rate "hilbert" smooth_phase
      = ([], .error (.nameError "X")) := rfl

/-- Claim C2: the claim says an unrecognised `method` fails with a
configuration error.  On the code it instead prints `Method not recognised`,
falls through, and dies reading the unassigned local `analytic_signal`
(`UnboundLocalError`, not a configuration `ValueError`) — for every method
string outside the three recognised ones. -/
theorem C2_unknown_method_prints_then_UnboundLocal {α : Type}
    (env : FreqStatsEnv α) (imf : α) (sample_rate : ℚ) (smooth_phase : ℕ)
    (method : String) (h1 : method ≠ "hilbert") (h2 : method ≠ "quad")
    (h3 : method ≠ "direct_quad") :
    frequency_stats env imf sample_rate method smooth_phase
      = (["Method not recognised"],
         .error (.unboundLocalError "analytic_signal")) := by
  unfold frequency_stats
  simp [h1, h2, h3]

/-- Concrete instantiation of `C2_unknown_method_prints_then_UnboundLocal`
at `method = "wavelet"` with trivial externals over `Unit` arrays. -/
theorem C2_unknown_method_witness :
    frequency_stats
        (FreqStatsEnv.mk (fun _ => ()) (fun _ => ()) (fun _ _ => ())
          (fun _ _ => ()) (fun _ => ())) () 1 "wavelet" 31
      = (["Method not recognised"],
         .error (.unboundLocalError "analytic_signal")) :=
  C2_unknown_method_prints_then_UnboundLocal _ () 1 31 "wavelet"
    (by decide) (by decide) (by decide)

/-- Claim C8: `method='direct_quad'` fails with the configuration error
`ValueError: direct_quad method is broken!` raised as the first statement of
the branch.  The theorem holds for every environment of external functions
and every input, so no phase, frequency or amplitude computation can have
run. -/
theorem C8_direct_quad_raises_ValueError {α : Type} (env : FreqStatsEnv α)
    (imf : α) (sample_rate : ℚ) (smooth_phase : ℕ) :
    frequency_stats env imf sample_rate "direct_quad" smooth_phase
      = ([], .error (.valueError "direct_quad method is broken!")) := rfl

/-!
## `freq_from_phase` / `phase_from_freq` (spectra.py lines 166-212)

1D signals (single columns; `axis=0` operations act on each column
independently) are embedded as `ℕ → ℚ` with an explicit length `n`.  `np.pi`
is kept as a symbolic parameter `pi : ℚ` so the embedding stays in exact
rational arithmetic; every statement below quantifies over it (the round
trip cancels it, so no claim depends on its value).
-/

/-- Embedding of 1D `np.gradient(p)` for a signal of length `n ≥ 2`:
one-sided differences at the two boundaries, central differences inside. -/
def npGradient (n : ℕ) (p : ℕ → ℚ) : ℕ → ℚ := fun i =>
  if i = 0 then p 1 - p 0
  else if i = n - 1 then p (n - 1) - p (n - 2)
  else (p (i + 1) - p (i - 1)) / 2

/-- Embedding of `np.cumsum(f)`: entry `k` is the sum of entries `0..k`. -/
def npCumsum (f : ℕ → ℚ) : ℕ → ℚ := fun k => ∑ i in Finset.range (k + 1), f i

/-- Embedding of `freq_from_phase(iphase, sample_rate)` (lines 166-188):
`np.gradient` of the phase, divided by `2π`, times the sample rate. -/
def freq_from_phase (pi : ℚ) (n : ℕ) (iphase : ℕ → ℚ)
    (sample_rate : ℚ) : ℕ → ℚ :=
  fun i => npGradient n iphase i / (2 * pi) * sample_rate

/-- Embedding of `phase_from_freq(ifrequency, sample_rate, phase_start)`
(lines 190-212): cumulative sum of `(ifrequency/sample_rate)*2π` added to
the starting phase. -/
def phase_from_freq (pi : ℚ) (ifrequency : ℕ → ℚ) (sample_rate : ℚ)
    (phase_start : ℚ) : ℕ → ℚ :=
  fun k => phase_start + npCumsum (fun i => ifrequency i / sample_rate * (2 * pi)) k

/-- With a nonzero sample rate and nonzero `π` the `2π` and sample-rate
factors cancel exactly, so the round trip is the starting phase plus the
cumulative sum of the gradient. -/
theorem phase_freq_roundtrip_eq (pi : ℚ) (n : ℕ) (p : ℕ → ℚ) (fs : ℚ)
    (hfs : fs ≠ 0) (hpi : pi ≠ 0) (k : ℕ) :
    phase_from_freq pi (freq_from_phase pi n p fs) fs (p 0) k
      = p 0 + ∑ i in Finset.range (k + 1), npGradient n p i := by
  unfold phase_from_freq freq_from_phase npCumsum
  congr 1
  refine Finset.sum_congr rfl (fun i _ => ?_)
  field_simp
  ring

/-- On an arithmetic progression every entry of the gradient equals the
common difference. -/
theorem npGradient_const_step (n : ℕ) (p : ℕ → ℚ) (d : ℚ) (hn : 2 ≤ n)
    (hstep : ∀ i, i + 1 < n → p (i + 1) = p i + d) :
    ∀ i, i < n → npGradient n p i = d := by
  intro i hi
  unfold npGradient
  by_cases h0 : i = 0
  · subst h0
    rw [if_pos rfl]
    have h1 : p (0 + 1) = p 0 + d := hstep 0 (by omega)
    simp only [Nat.zero_add] at h1
    rw [h1]
    ring
  · by_cases hlast : i = n - 1
    · rw [if_neg h0, if_pos hlast]
      have h2 : p (n - 2 + 1) = p (n - 2) + d := hstep (n - 2) (by omega)
      have h3 : n - 2 + 1 = n - 1 := by omega
      rw [h3] at h2
      rw [h2]
      ring
    · rw [if_neg h0, if_neg hlast]
      have h1 : p (i + 1) = p i + d := hstep i (by omega)
      have h2 : p (i - 1 + 1) = p (i - 1) + d := hstep (i - 1) (by omega)
      have h3 : i - 1 + 1 = i := by omega
      rw [h3] at h2
      rw [h1, h2]
      ring

/-- Claim C4 counterexample: the claim says
`phase_from_freq(freq_from_phase(phase, fs), fs, phase[0])` reproduces
`phase` at every sample except possibly the first.  At the concrete phase
array `[0, 1, 2]` with `fs = 1` (and `π` instantiated at the nonzero
rational `3`, on which the round trip does not depend) the round trip
returns `2` at sample `1`, where the original phase is `1`. -/
theorem C4_roundtrip_counterexample :
    phase_from_freq 3 (freq_from_phase 3 3 (fun i => (i : ℚ)) 1) 1
        ((fun i => (i : ℚ)) 0) 1
      ≠ (fun i => (i : ℚ)) 1 := by
  have h := phase_freq_roundtrip_eq 3 3 (fun i => (i : ℚ)) 1 (by norm_num)
    (by norm_num) 1
  rw [show ((fun i => (i : ℚ)) 0) = ((0 : ℕ) : ℚ) from rfl, h]
  norm_num [npGradient, Finset.sum_range_succ]

/-- Claim C4 (amended): for a phase array of length `n ≥ 2` with constant
increment `d` (an arithmetic progression, e.g. any constant-frequency
phase ramp), a nonzero sample rate and any nonzero value of `π`, the round
trip `phase_from_freq(freq_from_phase(phase, fs), fs, phase[0])` returns
`phase[k] + d` at every sample `k < n`: the original phase advanced by one
increment, not the original phase — so it reproduces `phase` (beyond the
first sample) only when `d = 0`. -/
theorem C4_roundtrip_shifts_by_one_step (pi : ℚ) (n : ℕ) (p : ℕ → ℚ)
    (d : ℚ) (fs : ℚ) (hn : 2 ≤ n) (hfs : fs ≠ 0) (hpi : pi ≠ 0)
    (hstep : ∀ i, i + 1 < n → p (i + 1) = p i + d) :
    ∀ k, k < n →
      phase_from_freq pi (freq_from_phase pi n p fs) fs (p 0) k = p k + d := by
  intro k hk
  rw [phase_freq_roundtrip_eq pi n p fs hfs hpi k]
  have hgrad : ∀ i ∈ Finset.range (k + 1), npGradient n p i = d := by
    intro i hi
    have hik : i < k + 1 := Finset.mem_range.mp hi
    exact npGradient_const_step n p d hn hstep i (by omega)
  rw [Finset.sum_congr rfl hgrad, Finset.sum_const, Finset.card_range,
    nsmul_eq_mul]
  have hpk : p k = p 0 + k * d := by
    clear hgrad
    induction k with
    | zero => simp
    | succ m ih =>
      have hm : p (m + 1) = p m + d := hstep m (by omega)
      rw [hm, ih (by omega)]
      push_cast
      ring
  rw [hpk]
  push_cast
  ring

/-- Concrete instantiation of `C4_roundtrip_shifts_by_one_step` at the
phase array `[0, 1, 2]`, `d = 1`, `fs = 1`, `π := 3`, sample `k = 1`. -/
theorem C4_roundtrip_shifts_witness :
    phase_from_freq 3 (freq_from_phase 3 3 (fun i => (i : ℚ)) 1) 1
        ((fun i => (i : ℚ)) 0) 1
      = (fun i => (i : ℚ)) 1 + 1 :=
  C4_roundtrip_shifts_by_one_step 3 3 (fun i => (i : ℚ)) 1 1 (by norm_num)
    (by norm_num) (by norm_num)
    (fun i _ => by push_cast; ring) 1 (by norm_num)

/-!
## `quadrature_transform` (spectra.py lines 97-121)

The function operates on a `(T, C)` real array.  `utils.amplitude_normalise`
lives outside `src/`; per the spec (§6) it rescales each column into
approximately `[-1, 1]` and, with `clip=True`, hard-clips the result into
exactly `[-1, 1]`.  The unspecified rescale is kept as the parameter
`normCore`; the clip is modelled exactly.  `np.lib.scimath.sqrt(y).real` is
`Real.sqrt y` (mathlib's `Real.sqrt` is `0` on negatives, matching the real
part of a purely imaginary scimath square root).

The sign mask (lines 115-117) is `((np.diff(nX, axis=0) > 0) * -2) + 1`,
which is `-1` where the signal strictly increases to the next sample and
`+1` otherwise (`mask[mask == 0] = -1` is dead: the values are already
only `±1`), with the last row of the diff-mask repeated once so the final
time point reuses the previous sample's sign.
-/

/-- Hard clip into `[-1, 1]`: the effect of `clip=True` in
`utils.amplitude_normalise` per spec §6. -/
def clip1 (x : ℝ) : ℝ := max (-1) (min 1 x)

/-- Modelled from the spec: `utils.amplitude_normalise(X, clip=True)`
(the function itself lives outside `src/`; spec §6 documents its contract).
An envelope rescale — kept as the parameter `normCore` because the spec
fixes no formula for it — followed by a hard clip into exactly `[-1, 1]`. -/
def amplitude_normalise (normCore : (ℕ → ℕ → ℝ) → ℕ → ℕ → ℝ)
    (X : ℕ → ℕ → ℝ) : ℕ → ℕ → ℝ :=
  fun t c => clip1 (normCore X t c)

/-- The sign mask of `quadrature_transform` (lines 115-117) for a `(T, C)`
array: `-1` where the normalised signal strictly increases to its successor,
`+1` otherwise; the final row repeats the previous row's sign. -/
noncomputable def quadMask (T : ℕ) (nX : ℕ → ℕ → ℝ) (t c : ℕ) : ℝ :=
  if t + 1 < T then (if nX (t + 1) c > nX t c then -1 else 1)
  else (if nX (T - 1) c > nX (T - 2) c then -1 else 1)

/-- Embedding of `quadrature_transform(X)` (lines 97-121) on a `(T, C)`
array: `nX + 1j * (sqrt(1 - nX**2).real * mask)` with `nX` the clipped
normalisation of `X`. -/
noncomputable def quadrature_transform
    (normCore : (ℕ → ℕ → ℝ) → ℕ → ℕ → ℝ) (T : ℕ) (X : ℕ → ℕ → ℝ) :
    ℕ → ℕ → ℂ :=
  fun t c =>
    ⟨amplitude_normalise normCore X t c,
     Real.sqrt (1 - amplitude_normalise normCore X t c ^ 2)
       * quadMask T (amplitude_normalise normCore X) t c⟩

theorem quadrature_transform_im (normCore : (ℕ → ℕ → ℝ) → ℕ → ℕ → ℝ)
    (T : ℕ) (X : ℕ → ℕ → ℝ) (t c : ℕ) :
    (quadrature_transform normCore T X t c).im
      = Real.sqrt (1 - amplitude_normalise normCore X t c ^ 2)
          * quadMask T (amplitude_normalise normCore X) t c := rfl

theorem clip1_bounds (x : ℝ) : -1 ≤ clip1 x ∧ clip1 x ≤ 1 :=
  ⟨le_max_left _ _, max_le (by norm_num) (min_le_left _ _)⟩

theorem quadMask_sq (T : ℕ) (nX : ℕ → ℕ → ℝ) (t c : ℕ) :
    quadMask T nX t c ^ 2 = 1 := by
  unfold quadMask
  split_ifs <;> norm_num

/-- Claim C7 counterexample: the claim says an ascending slope between a
sample and its successor yields a positive sign for the quadrature
component.  At the concrete input column `[0, 1]` (already in `[-1, 1]`, so
any clipped normalisation core may be the identity) the slope at sample `0`
is ascending, yet the imaginary part there is `-1`, i.e. the sign is
negative. -/
theorem C7_ascending_sign_counterexample :
    (quadrature_transform (fun X => X) 2
        (fun t _ => if t = 0 then (0 : ℝ) else 1) 0 0).im = -1
    ∧ ((fun t (_ : ℕ) => if t = 0 then (0 : ℝ) else 1) 1 0
        > (fun t (_ : ℕ) => if t = 0 then (0 : ℝ) else 1) 0 0) := by
  constructor
  · rw [quadrature_transform_im]
    norm_num [amplitude_normalise, clip1, quadMask]
  · norm_num

/-- Claim C7 (amended): `quadrature_transform` assigns the sign of the
quadrature component from the direction of change between consecutive
samples — an ascending slope between a sample and its successor yields a
NEGATIVE sign for that sample (non-ascending yields a positive sign) — and
the final time point reuses the sign of the previous sample as a boundary
rule. -/
theorem C7_quad_sign_convention (normCore : (ℕ → ℕ → ℝ) → ℕ → ℕ → ℝ)
    (T : ℕ) (X : ℕ → ℕ → ℝ) (t c : ℕ) (hT : 2 ≤ T) :
    (t + 1 < T →
      ((amplitude_normalise normCore X (t + 1) c
          > amplitude_normalise normCore X t c →
        (quadrature_transform normCore T X t c).im
          = -Real.sqrt (1 - amplitude_normalise normCore X t c ^ 2))
       ∧ (¬ amplitude_normalise normCore X (t + 1) c
            > amplitude_normalise normCore X t c →
        (quadrature_transform normCore T X t c).im
          = Real.sqrt (1 - amplitude_normalise normCore X t c ^ 2))))
    ∧ (t = T - 1 →
        (quadrature_transform normCore T X t c).im
          = quadMask T (amplitude_normalise normCore X) (T - 2) c
              * Real.sqrt (1 - amplitude_normalise normCore X t c ^ 2)) := by
  constructor
  · intro hlt
    constructor <;> intro hcmp <;>
      · rw [quadrature_transform_im]
        unfold quadMask
        simp only [if_pos hlt, hcmp, if_true, if_false]
        try rw [if_pos hcmp]
        try rw [if_neg hcmp]
        ring
  · intro hlast
    subst hlast
    rw [quadrature_transform_im]
    unfold quadMask
    have h1 : ¬ (T - 1 + 1 < T) := by omega
    have h2 : T - 2 + 1 < T := by omega
    have h3 : T - 2 + 1 = T - 1 := by omega
    rw [if_neg h1, if_pos h2, h3]
    ring

/-- Concrete instantiation of `C7_quad_sign_convention` at the input column
`[0, 1]`, sample `0`: the ascending slope gives imaginary part
`-sqrt(1 - nX[0]^2)`. -/
theorem C7_quad_sign_convention_witness :
    (quadrature_transform (fun X => X) 2
        (fun t _ => if t = 0 then (0 : ℝ) else 1) 0 0).im
      = -Real.sqrt (1 - amplitude_normalise (fun X => X)
          (fun t _ => if t = 0 then (0 : ℝ) else 1) 0 0 ^ 2) :=
  ((C7_quad_sign_convention (fun X => X) 2
      (fun t _ => if t = 0 then (0 : ℝ) else 1) 0 0 (by norm_num)).1
    (by norm_num)).1 (by norm_num [amplitude_normalise, clip1])

/-- Claim C10: every element of the complex array returned by
`quadrature_transform` has absolute value exactly `1`: the clip maps the
real part into `[-1, 1]`, the imaginary part is `±sqrt(1 - real^2)`, so
`real^2 + imag^2 = 1` at every sample — for every input array and every
normalisation core, at every in-array position of an array with at least
two time samples. -/
theorem C10_quadrature_unit_modulus (normCore : (ℕ → ℕ → ℝ) → ℕ → ℕ → ℝ)
    (T C : ℕ) (X : ℕ → ℕ → ℝ) (t c : ℕ) (hT : 2 ≤ T) (ht : t < T)
    (hc : c < C) :
    Complex.abs (quadrature_transform normCore T X t c) = 1 := by
  have hre : -1 ≤ amplitude_normalise normCore X t c
      ∧ amplitude_normalise normCore X t c ≤ 1 := clip1_bounds _
  have hsq : amplitude_normalise normCore X t c ^ 2 ≤ 1 :=
    (sq_le_one_iff_abs_le_one (amplitude_normalise normCore X t c)).mpr
      (abs_le.mpr hre)
  have hnonneg : (0 : ℝ) ≤ 1 - amplitude_normalise normCore X t c ^ 2 := by
    linarith
  rw [Complex.abs_apply]
  have hns : Complex.normSq (quadrature_transform normCore T X t c) = 1 := by
    unfold quadrature_transform
    rw [Complex.normSq_mk]
    have him : Real.sqrt (1 - amplitude_normalise normCore X t c ^ 2)
          * quadMask T (amplitude_normalise normCore X) t c
        * (Real.sqrt (1 - amplitude_normalise normCore X t c ^ 2)
          * quadMask T (amplitude_normalise normCore X) t c)
        = 1 - amplitude_normalise normCore X t c ^ 2 := by
      have hs : Real.sqrt (1 - amplitude_normalise normCore X t c ^ 2) ^ 2
          = 1 - amplitude_normalise normCore X t c ^ 2 :=
        Real.sq_sqrt hnonneg
      have hm : quadMask T (amplitude_normalise normCore X) t c ^ 2 = 1 :=
        quadMask_sq T (amplitude_normalise normCore X) t c
      calc Real.sqrt (1 - amplitude_normalise normCore X t c ^ 2)
            * quadMask T (amplitude_normalise normCore X) t c
          * (Real.sqrt (1 - amplitude_normalise normCore X t c ^ 2)
            * quadMask T (amplitude_normalise normCore X) t c)
          = Real.sqrt (1 - amplitude_normalise normCore X t c ^ 2) ^ 2
            * quadMask T (amplitude_normalise normCore X) t c ^ 2 := by ring
        _ = 1 - amplitude_normalise normCore X t c ^ 2 := by rw [hs, hm, mul_one]
    rw [him]
    ring
  rw [hns, Real.sqrt_one]

/-- Concrete instantiation of `C10_quadrature_unit_modulus` at the zero
array with `T = 2`, `C = 1`, position `(0, 0)`. -/
theorem C10_quadrature_unit_modulus_witness :
    Complex.abs (quadrature_transform (fun X => X) 2
      (fun _ _ => (0 : ℝ)) 0 0) = 1 :=
  C10_quadrature_unit_modulus (fun X => X) 2 1 (fun _ _ => (0 : ℝ)) 0 0
    (by norm_num) (by norm_num) (by norm_num)

/-!
## `hilberthuang` (spectra.py lines 356-397)

For a `(T, C)` frequency array and matching amplitude array the code
digitizes each sample, keeps an entry exactly when its digitize index is
`< len(freq_edges) - 1` or `== 0` (the `goods` filter of line 388 — note it
KEEPS index 0, which `np.digitize` assigns to samples BELOW `edges[0]`),
and builds a `(len(freq_edges) - 1, T)` matrix whose cell `(r, t)` sums the
kept values with digitize index `r` at time `t` (duplicate sparse
coordinates are summed by `coo_matrix`).  `mode='energy'` squares the
amplitudes first; any other mode leaves them as they are.
-/

/-- Embedding of `hilberthuang(infr, inam, freq_edges, mode)` densified
output (lines 356-397): the value of cell `(r, t)` of the returned
`(len(freq_edges) - 1, T)` array. -/
def hilberthuang (C : ℕ) (infr inam : ℕ → ℕ → ℚ) (freq_edges : List ℚ)
    (mode : String) (r t : ℕ) : ℚ :=
  ∑ c in Finset.range C,
    if digitize (infr t c) freq_edges = r
        ∧ (digitize (infr t c) freq_edges < freq_edges.length - 1
            ∨ digitize (infr t c) freq_edges = 0) then
      (if mode = "energy" then inam t c ^ 2 else inam t c)
    else 0

/-- Claim C6 failing input: `freq_edges = [0, 1, 2]`, one column, three time
samples with frequencies `-5` (below range), `1/2` (bin `[0,1)`) and `3/2`
(bin `[1,2)`), all amplitudes `1`, `mode='energy'`.  The code accumulates
the out-of-range sample `-5` into row 0 at time 0 (the claim says
out-of-range samples contribute nothing), and the in-range sample `3/2`
(inside the final bin) contributes to no row at time 2 (the claim says
every in-range sample is accumulated into its bin's row). -/
theorem C6_out_of_range_not_discarded :
    (hilberthuang 1
        (fun t _ => if t = 0 then -5 else if t = 1 then 1/2 else 3/2)
        (fun _ _ => 1) [0, 1, 2] "energy" 0 0 = 1
      ∧ (fun t (_ : ℕ) => if t = 0 then (-5 : ℚ)
          else if t = 1 then 1/2 else 3/2) 0 0 < 0)
    ∧ ((hilberthuang 1
          (fun t _ => if t = 0 then -5 else if t = 1 then 1/2 else 3/2)
          (fun _ _ => 1) [0, 1, 2] "energy" 0 2 = 0
        ∧ hilberthuang 1
          (fun t _ => if t = 0 then -5 else if t = 1 then 1/2 else 3/2)
          (fun _ _ => 1) [0, 1, 2] "energy" 1 2 = 0)
      ∧ (1 : ℚ) ≤ (fun t (_ : ℕ) => if t = 0 then (-5 : ℚ)
          else if t = 1 then 1/2 else 3/2) 2 0
      ∧ (fun t (_ : ℕ) => if t = 0 then (-5 : ℚ)
          else if t = 1 then 1/2 else 3/2) 2 0 ≤ 2) := by
  norm_num [hilberthuang, digitize, Finset.sum_range_one]

/-!
## `hilberthuang_1d` (spectra.py lines 399-436)

Per column: frequencies strictly below `fbins[0]` or strictly above
`fbins[-1]` are replaced by NaN (`np.digitize` sends NaN to
`len(fbins)`); the remaining samples get their digitize index; then for
each output row `ii in range(len(fbins) - 1)` the code sums the
(amplitude or squared-amplitude) values of the samples whose index equals
`ii`.  Since in-range samples carry digitize indices `1 .. len(fbins) - 1`,
row 0 never receives an in-range sample and the samples of the final bin
(index `len(fbins) - 1`) are dropped.
-/

/-- The digitize index `hilberthuang_1d` computes for one sample after the
NaN masking of lines 422-424. -/
def hh1dFinds (fbins : List ℚ) (x : ℚ) : ℕ :=
  if x < fbins.headD 0 ∨ x > fbins.getLastD 0 then fbins.length
  else digitize x fbins

/-- Embedding of `hilberthuang_1d(infr, inam, fbins, mode)` (lines 399-436):
the value of cell `(ii, jj)` of the returned
`(len(fbins) - 1, n_columns)` array, accumulated over `T` time samples. -/
def hilberthuang_1d (T : ℕ) (infr inam : ℕ → ℕ → ℚ) (fbins : List ℚ)
    (mode : String) (ii jj : ℕ) : ℚ :=
  if mode = "power" then
    ∑ t in Finset.range T,
      if hh1dFinds fbins (infr t jj) = ii then inam t jj else 0
  else if mode = "energy" then
    ∑ t in Finset.range T,
      if hh1dFinds fbins (infr t jj) = ii then inam t jj ^ 2 else 0
  else 0

/-- Claim C3 failing input: `fbins = [0, 1, 2]`, a single column with one
sample of frequency `3/2` (inside the final bin `[1, 2)`) and amplitude
`1`, `mode='energy'`.  The sum of the output over all bins of the column is
`0`, while the claim requires it to equal the in-range energy `1^2 = 1`:
the off-by-one between the 1-based digitize indices and the 0-based row
loop silently drops every sample of the final bin. -/
theorem C3_energy_not_conserved :
    (∑ ii in Finset.range 2,
        hilberthuang_1d 1 (fun _ _ => 3/2) (fun _ _ => 1) [0, 1, 2]
          "energy" ii 0) = 0
    ∧ ((0 : ℚ) ≤ 3/2 ∧ (3/2 : ℚ) ≤ 2 ∧ (1 : ℚ) ^ 2 = 1) := by
  norm_num [hilberthuang_1d, hh1dFinds, digitize, Finset.sum_range_succ,
    Finset.sum_range_one]

/-!
## `holospectrum` (spectra.py lines 297-354)

Inputs: carrier instantaneous frequency `infr` of shape `(T, I)`,
AM-frequency `infr2` and AM-amplitude `inam2` of shape `(T, I, J)`, and the
two edge vectors.  The code digitizes both frequency arrays, folds the two
bin indices into one linear index `carrier + am * (len(freq_edges) + 1)`,
builds a sparse COO matrix with one entry `(t, folded_index, value)` per
`(t, i, j)` sample (duplicate coordinates are summed), and then either

* `return_time=True`: densifies to shape `(T, fold2 * fold1)`, reshapes
  each time slice to `(fold2, fold1)` and trims the first and last index of
  both folded dimensions; or
* `return_time=False`: sums the COO matrix over its time axis while still
  sparse, then reshapes to `(fold2, fold1)` and trims likewise.

`mode='energy'` squares `inam2` before accumulation; any other mode leaves
it as it is.  The COO matrix is modelled as its literal entry list.
-/

/-- The COO entry list of `holospectrum`: one `(time, folded bin index,
accumulated value)` triple per `(t, i, j)` sample. -/
def holoEntries (T I J : ℕ) (infr : ℕ → ℕ → ℚ) (infr2 inam2 : ℕ → ℕ → ℕ → ℚ)
    (freq_edges freq_edges2 : List ℚ) (mode : String) : List (ℕ × ℕ × ℚ) :=
  (List.range T).bind (fun t =>
    (List.range I).bind (fun i =>
      (List.range J).map (fun j =>
        (t,
         digitize (infr t i) freq_edges
           + digitize (infr2 t i j) freq_edges2 * (freq_edges.length + 1),
         if mode = "energy" then inam2 t i j ^ 2 else inam2 t i j))))

/-- Densification of a COO entry list (`.toarray()`): cell `(t, k)` sums
every entry with those coordinates. -/
def cooToArray : List (ℕ × ℕ × ℚ) → ℕ → ℕ → ℚ
  | [], _, _ => 0
  | e :: l, t, k => (if e.1 = t ∧ e.2.1 = k then e.2.2 else 0) + cooToArray l t k

/-- Summing a COO entry list over its time axis while still sparse
(`.sum(axis=0)`): column `k` sums every entry with that column index. -/
def cooColSum : List (ℕ × ℕ × ℚ) → ℕ → ℚ
  | [], _ => 0
  | e :: l, k => (if e.2.1 = k then e.2.2 else 0) + cooColSum l k

/-- `holospectrum(..., return_time=True)` (lines 346-349): trimmed cell
`(t, a, c)` of the densified, reshaped 3D result, i.e. the dense cell at
time `t` and folded index `(a+1) * fold1 + (c+1)`. -/
def holospectrum_return_time (T I J : ℕ) (infr : ℕ → ℕ → ℚ)
    (infr2 inam2 : ℕ → ℕ → ℕ → ℚ) (freq_edges freq_edges2 : List ℚ)
    (mode : String) (t a c : ℕ) : ℚ :=
  cooToArray (holoEntries T I J infr infr2 inam2 freq_edges freq_edges2 mode)
    t ((a + 1) * (freq_edges.length + 1) + (c + 1))

/-- `holospectrum(..., return_time=False)` (lines 350-354): trimmed cell
`(a, c)` of the time-collapsed, reshaped 2D result. -/
def holospectrum_no_time (T I J : ℕ) (infr : ℕ → ℕ → ℚ)
    (infr2 inam2 : ℕ → ℕ → ℕ → ℚ) (freq_edges freq_edges2 : List ℚ)
    (mode : String) (a c : ℕ) : ℚ :=
  cooColSum (holoEntries T I J infr infr2 inam2 freq_edges freq_edges2 mode)
    ((a + 1) * (freq_edges.length + 1) + (c + 1))

/-- For an entry list whose time coordinates all lie below `T`, summing the
densified rows over `range T` agrees with the sparse column sum. -/
theorem coo_sum_rows_eq_colsum (T k : ℕ) (l : List (ℕ × ℕ × ℚ))
    (hb : ∀ e ∈ l, e.1 < T) :
    (∑ t in Finset.range T, cooToArray l t k) = cooColSum l k := by
  induction l with
  | nil => simp [cooToArray, cooColSum]
  | cons e l ih =>
    have he : e.1 < T := hb e (List.mem_cons_self e l)
    have hl : ∀ x ∈ l, x.1 < T := fun x hx => hb x (List.mem_cons_of_mem e hx)
    have hsplit : (∑ t in Finset.range T, cooToArray (e :: l) t k)
        = (∑ t in Finset.range T, if e.1 = t ∧ e.2.1 = k then e.2.2 else 0)
          + ∑ t in Finset.range T, cooToArray l t k := by
      rw [← Finset.sum_add_distrib]
      rfl
    rw [hsplit, ih hl]
    by_cases hk : e.2.1 = k
    · have hone : (∑ t in Finset.range T,
          if e.1 = t ∧ e.2.1 = k then e.2.2 else 0) = e.2.2 := by
        simp only [hk, and_true]
        rw [Finset.sum_ite_eq (Finset.range T) e.1 (fun _ => e.2.2)]
        exact if_pos (Finset.mem_range.mpr he)
      rw [hone]
      show e.2.2 + cooColSum l k = (if e.2.1 = k then e.2.2 else 0) + cooColSum l k
      rw [if_pos hk]
    · have hzero : (∑ t in Finset.range T,
          if e.1 = t ∧ e.2.1 = k then e.2.2 else 0) = 0 := by
        simp [hk]
      rw [hzero]
      show 0 + cooColSum l k = (if e.2.1 = k then e.2.2 else 0) + cooColSum l k
      rw [if_neg hk]

/-- Every entry of `holoEntries` has its time coordinate below `T`. -/
theorem holoEntries_time_lt (T I J : ℕ) (infr : ℕ → ℕ → ℚ)
    (infr2 inam2 : ℕ → ℕ → ℕ → ℚ) (freq_edges freq_edges2 : List ℚ)
    (mode : String) :
    ∀ e ∈ holoEntries T I J infr infr2 inam2 freq_edges freq_edges2 mode,
      e.1 < T := by
  intro e he
  unfold holoEntries at he
  rcases List.mem_bind.mp he with ⟨t, ht, he2⟩
  rcases List.mem_bind.mp he2 with ⟨i, _, he3⟩
  rcases List.mem_map.mp he3 with ⟨j, _, rfl⟩
  exact List.mem_range.mp ht

/-- Claim C5: for every identical set of inputs (carrier-frequency array,
AM-frequency array, AM-amplitude array, two edge vectors and mode), the
`return_time=True` holospectrum summed over its time axis equals the
`return_time=False` holospectrum, at every trimmed output cell `(a, c)`. -/
theorem C5_holospectrum_time_sum_consistent (T I J : ℕ) (infr : ℕ → ℕ → ℚ)
    (infr2 inam2 : ℕ → ℕ → ℕ → ℚ) (freq_edges freq_edges2 : List ℚ)
    (mode : String) (a c : ℕ) :
    (∑ t in Finset.range T,
        holospectrum_return_time T I J infr infr2 inam2 freq_edges
          freq_edges2 mode t a c)
      = holospectrum_no_time T I J infr infr2 inam2 freq_edges freq_edges2
          mode a c :=
  coo_sum_rows_eq_colsum T _ _
    (holoEntries_time_lt T I J infr infr2 inam2 freq_edges freq_edges2 mode)

/-!
## `define_hist_bins` (spectra.py lines 439-470)

The log branch computes `np.log([data_min, data_max])` with no check on the
sign of `data_min`: numpy only emits a RuntimeWarning and yields `nan` for a
negative argument (`-inf` for zero), and the linspace/exp pipeline then
propagates those non-finite values into the returned arrays.  To express
this exactly, array cells are modelled by `NpVal`: a finite rational or one
of the IEEE specials `nan`, `inf`, `-inf`, with the IEEE propagation rules
for the operations the function uses.  The real-valued `log`/`exp` on
positive finite cells are kept as the symbolic parameters
`mathlog`/`mathexp`, so the embedding stays in exact arithmetic; the claim
(an error-handling claim) does not depend on their values.
-/

/-- An IEEE-754-style numpy scalar: finite value, `nan`, `inf` or `-inf`. -/
inductive NpVal where
  /-- A finite value. -/
  | fin : ℚ → NpVal
  /-- IEEE `nan`. -/
  | nan : NpVal
  /-- IEEE positive infinity. -/
  | inf : NpVal
  /-- IEEE negative infinity. -/
  | ninf : NpVal
  deriving DecidableEq, Repr

/-- IEEE addition on `NpVal`. -/
def NpVal.add : NpVal → NpVal → NpVal
  | fin a, fin b => fin (a + b)
  | fin _, inf => inf
  | fin _, ninf => ninf
  | fin _, nan => nan
  | inf, fin _ => inf
  | inf, inf => inf
  | inf, ninf => nan
  | inf, nan => nan
  | ninf, fin _ => ninf
  | ninf, inf => nan
  | ninf, ninf => ninf
  | ninf, nan => nan
  | nan, _ => nan

/-- IEEE subtraction on `NpVal`. -/
def NpVal.sub : NpVal → NpVal → NpVal
  | fin a, fin b => fin (a - b)
  | fin _, inf => ninf
  | fin _, ninf => inf
  | fin _, nan => nan
  | inf, fin _ => inf
  | inf, inf => nan
  | inf, ninf => inf
  | inf, nan => nan
  | ninf, fin _ => ninf
  | ninf, inf => ninf
  | ninf, ninf => nan
  | ninf, nan => nan
  | nan, _ => nan

/-- IEEE multiplication on `NpVal` (`0 * ±inf = nan`). -/
def NpVal.mul : NpVal → NpVal → NpVal
  | fin a, fin b => fin (a * b)
  | fin a, inf => if 0 < a then inf else if a < 0 then ninf else nan
  | fin a, ninf => if 0 < a then ninf else if a < 0 then inf else nan
  | fin _, nan => nan
  | inf, fin a => if 0 < a then inf else if a < 0 then ninf else nan
  | inf, inf => inf
  | inf, ninf => ninf
  | inf, nan => nan
  | ninf, fin a => if 0 < a then ninf else if a < 0 then inf else nan
  | ninf, inf => ninf
  | ninf, ninf => inf
  | ninf, nan => nan
  | nan, _ => nan

/-- Division of an `NpVal` by a (positive) natural constant. -/
def NpVal.divN : NpVal → ℕ → NpVal
  | fin a, n => if n = 0 then nan else fin (a / n)
  | inf, _ => inf
  | ninf, _ => ninf
  | nan, _ => nan

/-- Embedding of `np.log` on one cell, with `mathlog` the real logarithm on
positive finite cells: `log` of a negative value is `nan` (numpy emits only
a RuntimeWarning), `log 0 = -inf`. -/
def nplog (mathlog : ℚ → ℚ) : NpVal → NpVal
  | NpVal.fin q =>
      if 0 < q then NpVal.fin (mathlog q)
      else if q = 0 then NpVal.ninf else NpVal.nan
  | NpVal.nan => NpVal.nan
  | NpVal.inf => NpVal.inf
  | NpVal.ninf => NpVal.nan

/-- Embedding of `np.exp` on one cell, with `mathexp` the real exponential
on finite cells: `exp (-inf) = 0`, `exp inf = inf`, `exp nan = nan`. -/
def npexp (mathexp : ℚ → ℚ) : NpVal → NpVal
  | NpVal.fin q => NpVal.fin (mathexp q)
  | NpVal.nan => NpVal.nan
  | NpVal.inf => NpVal.inf
  | NpVal.ninf => NpVal.fin 0

/-- Embedding of `np.linspace(start, stop, num)` for scalar endpoints with
`endpoint=True` (numpy's implementation): `step = (stop - start) / (num-1)`,
entry `i` is `i * step + start` (or `(i / (num-1)) * (stop - start)` when
the step underflows to zero), and the final entry is set to `stop`. -/
def nplinspace (start stop : NpVal) (num : ℕ) : List NpVal :=
  let div := num - 1
  let delta := stop.sub start
  let step := delta.divN div
  (List.range num).map (fun i =>
    if i = num - 1 then stop
    else if step = NpVal.fin 0
    then (((NpVal.fin (i : ℚ)).divN div).mul delta).add start
    else ((NpVal.fin (i : ℚ)).mul step).add start)

/-- The bin-centre computation of `define_hist_bins` (line 468): arithmetic
midpoints of adjacent edges. -/
def histCentres (edges : List NpVal) : List NpVal :=
  (List.range (edges.length - 1)).map (fun i =>
    ((edges.getD i NpVal.nan).add (edges.getD (i + 1) NpVal.nan)).divN 2)

/-- Embedding of `define_hist_bins(data_min, data_max, nbins, scale)`
(lines 439-470): log scale takes `np.log` of the endpoints with no
validation of `data_min`, linspaces in log space and exponentiates; linear
scale linspaces directly; an unrecognised scale raises `ValueError` (whose
message is the unformatted template of line 465). -/
def define_hist_bins (mathlog mathexp : ℚ → ℚ) (data_min data_max : ℚ)
    (nbins : ℕ) (scale : String) :
    Except PyErr (List NpVal × List NpVal) :=
  if scale = "log" then
    let p0 := nplog mathlog (NpVal.fin data_min)
    let p1 := nplog mathlog (NpVal.fin data_max)
    let edges := (nplinspace p0 p1 (nbins + 1)).map (npexp mathexp)
    Except.ok (edges, histCentres edges)
  else if scale = "linear" then
    let edges := nplinspace (NpVal.fin data_min) (NpVal.fin data_max)
      (nbins + 1)
    Except.ok (edges, histCentres edges)
  else
    Except.error (.valueError
      "scale \x27\x7b0\x7d\x27 not recognised. please use \x27log\x27 or \x27linear\x27.")

/-- Claim C9 failing input: `define_hist_bins(-1, 2, 3, scale='log')`.  The
claim says a non-positive `data_min` under log scale fails immediately with
a configuration error; the code instead takes `np.log(-1) = nan` (only a
RuntimeWarning) and returns edge and centre arrays: all edges are `nan`
except the last (which linspace pins to `log(data_max)`, exponentiated
back), and all centres are `nan` — for every model of the real `log` and
`exp`. -/
theorem C9_log_scale_accepts_nonpositive_min (mathlog mathexp : ℚ → ℚ) :
    define_hist_bins mathlog mathexp (-1) 2 3 "log"
      = Except.ok
          ([NpVal.nan, NpVal.nan, NpVal.nan,
            NpVal.fin (mathexp (mathlog 2))],
           [NpVal.nan, NpVal.nan, NpVal.nan]) := by
  rfl
